import Mathlib

/-!
Verification of the usage aggregator of `ldf_ops_tools`.

The Python sources (`usage/process.py`, `usage/extract.py`, `usage/usage.py`,
`usage/output.py`) are shallowly embedded below.  Timestamps are modelled as
`Int` seconds (`datetime` differences in the source are taken with
`total_seconds()`); Python float arithmetic is modelled as exact rational
arithmetic over `ℚ`; Python runtime errors (`ZeroDivisionError`,
`IndexError`, `ValueError`, `RuntimeError`, `KeyError`) are modelled with
`Except String`.
-/

namespace LdfOps

/-- Python `int(x)` applied to a float: truncation toward zero. -/
def pyint (q : ℚ) : Int := if q < 0 then ⌈q⌉ else ⌊q⌋

/-- Python float division `a / b`: raises `ZeroDivisionError` when `b == 0`. -/
def pydiv (a b : ℚ) : Except String ℚ :=
  if b = 0 then .error "float division by zero" else .ok (a / b)

/-- Python `range(i, j)` over (possibly negative) integers. -/
def intRange (i j : Int) : List Int :=
  (List.range (j - i).toNat).map (fun n : Nat => i + (n : Int))

/-- Python in-place element update `l[k] = f(l[k])`: negative indices count
from the end, out-of-range indices raise `IndexError`. -/
def pyModify (l : List α) (k : Int) (f : α → α) : Except String (List α) :=
  let idx : Int := if k < 0 then (l.length : Int) + k else k
  if 0 ≤ idx ∧ idx < (l.length : Int) then
    match l.get? idx.toNat with
    | some a => .ok (l.set idx.toNat (f a))
    | none => .error "list index out of range"
  else .error "list index out of range"

/-- One accounting record as consumed by `get_usage` (after `convert_times`):
`start`/`end` are absolute timestamps in seconds, `nnodes` the node count,
`jobname` the (possibly already classified) job label.
The Python `end` key is spelled `end_` (`end` is a Lean keyword). -/
structure Rec where
  jobname : String
  nnodes : Int
  start : Int
  end_ : Int
deriving DecidableEq

/-- `min(rec['start'] for rec in data)` over the non-empty list `d :: ds`. -/
def minStart (d : Rec) (ds : List Rec) : Int :=
  ds.foldl (fun a r => min a r.start) d.start

/-- `max(rec['end'] for rec in data)` over the non-empty list `d :: ds`. -/
def maxEnd (d : Rec) (ds : List Rec) : Int :=
  ds.foldl (fun a r => max a r.end_) d.end_

/-- `i, j = int(begin / step), int(end / step)` for one record, with offsets
relative to `t0` (the source precomputes `start_times` / `end_times`; doing it
per record is the same computation). -/
def recBuckets (t0 : Int) (step : ℚ) (r : Rec) : Except String (Int × Int) := do
  let iq ← pydiv ((r.start - t0 : Int) : ℚ) step
  let jq ← pydiv ((r.end_ - t0 : Int) : ℚ) step
  pure (pyint iq, pyint jq)

/-- The body of the inner `for k in range(i, j)` loop of `get_usage`:
`usage[k] += nodes; names[k] += name + ','` (Python `x += e` is `x = x + (e)`). -/
def bucketWrite (nodes : Int) (name : String) (acc : List Int × List String) (k : Int) :
    Except String (List Int × List String) := do
  let u' ← pyModify acc.1 k (· + nodes)
  let n' ← pyModify acc.2 k (· ++ (name ++ ","))
  pure (u', n')

/-- Processing of a single record in the histogram loop of `get_usage`:
compute the bucket index range and run the inner loop. -/
def bucketStep (u : List Int) (n : List String) (r : Rec) (t0 : Int) (step : ℚ) :
    Except String (List Int × List String) := do
  let (i, j) ← recBuckets t0 step r
  (intRange i j).foldlM (bucketWrite r.nnodes r.jobname) (u, n)

/-- The histogram loop of `get_usage` (lines 39–45 of `usage/process.py`):
`usage = [0]*res; names = ['']*res;` then the nested loops over records and
bucket indices. -/
def bucketLoop (data : List Rec) (t0 : Int) (step : ℚ) (res : Nat) :
    Except String (List Int × List String) :=
  data.foldlM (fun acc r => bucketStep acc.1 acc.2 r t0 step)
    (List.replicate res 0, List.replicate res "")

/-- Python `s.rstrip(',')`. -/
def rstrip_comma (s : String) : String :=
  ⟨(s.data.reverse.dropWhile (· = ',')).reverse⟩

/-- Python `str.split(c)` on a list of characters (single-character
separator); `[] → [[]]` mirrors `''.split(c) == ['']`. -/
def pySplit (c : Char) : List Char → List (List Char)
  | [] => [[]]
  | x :: xs =>
    match pySplit c xs with
    | [] => [[]]
    | g :: gs => if x = c then [] :: g :: gs else (x :: g) :: gs

/-- Python `s.split(c)` for a single-character separator `c`. -/
def pySplitStr (s : String) (c : Char) : List String :=
  (pySplit c s.data).map String.mk

/-- `get_usage` of `usage/process.py`: returns `(times, usage, jobs)`.
`min()` of an empty generator raises `ValueError`; `duration / res` raises
`ZeroDivisionError` when `res == 0`; the per-record `int(begin / step)`
raises `ZeroDivisionError` when `step == 0` (i.e. zero total span). -/
def get_usage (data : List Rec) (res : Nat) :
    Except String (List ℚ × List Int × List (List String)) :=
  match data with
  | [] => .error "min() arg is an empty sequence"
  | d :: ds =>
    let begin_ := minStart d ds
    let end_ := maxEnd d ds
    let duration : ℚ := ((end_ - begin_ : Int) : ℚ)
    if res = 0 then .error "division by zero"
    else do
      let step := duration / (res : ℚ)
      let (usage, names) ← bucketLoop (d :: ds) begin_ step res
      let names2 := names.map rstrip_comma
      let times := (List.range res).map (fun i : Nat => step * ((i : ℚ) + 1/2) / 3600)
      let jobs := names2.map (fun s => if s ≠ "" then pySplitStr s ',' else ([] : List String))
      pure (times, usage, jobs)

/-- Rounding half to even on `ℚ`, as Python's `round` does. -/
def round_half_even (q : ℚ) : Int :=
  let f := ⌊q⌋
  let r := q - (f : ℚ)
  if r < 1/2 then f
  else if 1/2 < r then f + 1
  else if f % 2 = 0 then f else f + 1

/-- Python `round(q, 2)` (floats modelled as exact rationals). -/
def pyRound2 (q : ℚ) : ℚ := ((round_half_even (q * 100) : ℚ)) / 100

/-- The per-record node-seconds term `(end - start).total_seconds() * nnodes`. -/
def durNodes (r : Rec) : ℚ := (((r.end_ - r.start) * r.nnodes : Int) : ℚ)

/-- `get_nodehours` of `usage/process.py`: `round(sum(dur*node)/3600.0, 2)`. -/
def get_nodehours (data : List Rec) : ℚ :=
  pyRound2 ((data.map durNodes).sum / 3600)

/-- Left-fold concatenation of a list of strings (the shape in which bucket
label strings accumulate). -/
def strConcat (l : List String) : String :=
  l.foldl (fun a s => a ++ s) ""

/-- Whether record `r` occupies bucket `k`, phrased with the mathematical
floor of the spec: `⌊start_offset / step⌋ ≤ k < ⌊end_offset / step⌋`. -/
def covers (t0 : Int) (step : ℚ) (k : Int) (r : Rec) : Bool :=
  decide (⌊((r.start - t0 : Int) : ℚ) / step⌋ ≤ k) &&
    decide (k < ⌊((r.end_ - t0 : Int) : ℚ) / step⌋)

/-- Same as `covers`, but with the truncating `int()` the code actually uses. -/
def pyCovers (t0 : Int) (step : ℚ) (k : Int) (r : Rec) : Bool :=
  decide (pyint (((r.start - t0 : Int) : ℚ) / step) ≤ k) &&
    decide (k < pyint (((r.end_ - t0 : Int) : ℚ) / step))

instance {ε α : Type _} [DecidableEq ε] [DecidableEq α] : DecidableEq (Except ε α)
  | .error e, .error f =>
    if h : e = f then isTrue (by rw [h]) else isFalse (fun hh => h (Except.error.inj hh))
  | .error _, .ok _ => isFalse (fun hh => Except.noConfusion hh)
  | .ok _, .error _ => isFalse (fun hh => Except.noConfusion hh)
  | .ok a, .ok b =>
    if h : a = b then isTrue (by rw [h]) else isFalse (fun hh => h (Except.ok.inj hh))

/-! ### Basic lemmas about the Python-modelling helpers -/

theorem except_bind_ok {ε α β : Type _} (a : α) (f : α → Except ε β) :
    (Except.ok a >>= f : Except ε β) = f a := rfl

theorem except_bind_error {ε α β : Type _} (e : ε) (f : α → Except ε β) :
    (Except.error e >>= f : Except ε β) = Except.error e := rfl

theorem pyint_of_nonneg {q : ℚ} (h : 0 ≤ q) : pyint q = ⌊q⌋ := by
  simp [pyint, not_lt.mpr h]

theorem pyint_le_ceil (q : ℚ) : pyint q ≤ ⌈q⌉ := by
  unfold pyint
  split
  · exact le_refl _
  · exact Int.floor_le_ceil q

theorem mem_intRange {i j k : Int} : k ∈ intRange i j ↔ i ≤ k ∧ k < j := by
  simp only [intRange, List.mem_map, List.mem_range]
  constructor
  · rintro ⟨n, hn, rfl⟩
    omega
  · rintro ⟨h1, h2⟩
    exact ⟨(k - i).toNat, by omega, by omega⟩

theorem intRange_nodup (i j : Int) : (intRange i j).Nodup := by
  refine List.Nodup.map ?_ (List.nodup_range _)
  intro a b h
  have h' : i + (a : Int) = i + (b : Int) := h
  omega

theorem intRange_count {i j k : Int} :
    (intRange i j).count k = if i ≤ k ∧ k < j then 1 else 0 := by
  by_cases h : i ≤ k ∧ k < j
  · rw [if_pos h]
    exact List.count_eq_one_of_mem (intRange_nodup i j) (mem_intRange.mpr h)
  · rw [if_neg h]
    exact List.count_eq_zero_of_not_mem (fun hm => h (mem_intRange.mp hm))

theorem pyModify_ok {α : Type _} {l : List α} {k : Int} (f : α → α) (d : α)
    (h0 : 0 ≤ k) (h1 : k < (l.length : Int)) :
    pyModify l k f = .ok (l.set k.toNat (f (l.getD k.toNat d))) := by
  have hk : ¬ k < 0 := by omega
  have hlt : k.toNat < l.length := by omega
  simp only [pyModify, if_neg hk]
  rw [if_pos ⟨h0, h1⟩, List.get?_eq_getElem?, List.getElem?_eq_getElem hlt]
  simp [List.getD_eq_getElem?_getD, List.getElem?_eq_getElem hlt]

theorem getD_set_self {α : Type _} {l : List α} {i : Nat} {a d : α} (h : i < l.length) :
    (l.set i a).getD i d = a := by
  simp [List.getD_eq_getElem?_getD, List.getElem?_set_self h]

theorem getD_set_ne {α : Type _} {l : List α} {i j : Nat} {a d : α} (h : i ≠ j) :
    (l.set i a).getD j d = l.getD j d := by
  simp [List.getD_eq_getElem?_getD, List.getElem?_set_ne h]

theorem getD_replicate {α : Type _} {c m : Nat} {a : α} :
    (List.replicate c a).getD m a = a := by
  simp only [List.getD_eq_getElem?_getD, List.getElem?_replicate]
  split <;> rfl

theorem strConcat_nil : strConcat [] = "" := rfl

theorem foldl_str_append (l : List String) : ∀ (a b : String),
    l.foldl (fun x s => x ++ s) (a ++ b) = a ++ l.foldl (fun x s => x ++ s) b := by
  induction l with
  | nil => intro a b; rfl
  | cons s t ih =>
    intro a b
    simp only [List.foldl_cons, String.append_assoc, ih]

theorem strConcat_cons (s : String) (t : List String) :
    strConcat (s :: t) = s ++ strConcat t := by
  have h := foldl_str_append t s ""
  simp only [strConcat, List.foldl_cons, String.empty_append]
  rw [← String.append_empty s, h, String.append_empty]

theorem strConcat_replicate_succ (c : Nat) (s : String) :
    strConcat (List.replicate (c + 1) s) = s ++ strConcat (List.replicate c s) := by
  rw [List.replicate_succ, strConcat_cons]

theorem minStart_le {d r : Rec} {ds : List Rec} (h : r ∈ d :: ds) :
    minStart d ds ≤ r.start := by
  have key : ∀ (l : List Rec) (a : Int),
      (l.foldl (fun x s => min x s.start) a ≤ a) ∧
        ∀ s ∈ l, l.foldl (fun x s => min x s.start) a ≤ s.start := by
    intro l
    induction l with
    | nil => intro a; exact ⟨le_refl a, by simp⟩
    | cons e t ih =>
      intro a
      refine ⟨le_trans (ih (min a e.start)).1 (min_le_left _ _), ?_⟩
      intro s hs
      rcases List.mem_cons.mp hs with h' | h'
      · subst h'
        exact le_trans (ih (min a s.start)).1 (min_le_right _ _)
      · exact (ih (min a e.start)).2 s h'
  rcases List.mem_cons.mp h with h' | h'
  · subst h'
    exact (key ds r.start).1
  · exact (key ds d.start).2 r h'

theorem le_maxEnd {d r : Rec} {ds : List Rec} (h : r ∈ d :: ds) :
    r.end_ ≤ maxEnd d ds := by
  have key : ∀ (l : List Rec) (a : Int),
      (a ≤ l.foldl (fun x s => max x s.end_) a) ∧
        ∀ s ∈ l, s.end_ ≤ l.foldl (fun x s => max x s.end_) a := by
    intro l
    induction l with
    | nil => intro a; exact ⟨le_refl a, by simp⟩
    | cons e t ih =>
      intro a
      refine ⟨le_trans (le_max_left _ _) (ih (max a e.end_)).1, ?_⟩
      intro s hs
      rcases List.mem_cons.mp hs with h' | h'
      · subst h'
        exact le_trans (le_max_right _ _) (ih (max a s.end_)).1
      · exact (ih (max a e.end_)).2 s h'
  rcases List.mem_cons.mp h with h' | h'
  · subst h'
    exact (key ds r.end_).1
  · exact (key ds d.end_).2 r h'

/-! ### Characterization of the histogram loop -/

theorem foldlM_bucketWrite (nodes : Int) (name : String) :
    ∀ (ks : List Int) (u : List Int) (n : List String),
      (∀ k ∈ ks, 0 ≤ k ∧ k < (u.length : Int)) → n.length = u.length →
      ∃ u' n', ks.foldlM (bucketWrite nodes name) (u, n) = .ok (u', n')
        ∧ u'.length = u.length ∧ n'.length = n.length
        ∧ (∀ m : Nat, u'.getD m 0 = u.getD m 0 + nodes * (ks.count (m : Int) : Int))
        ∧ (∀ m : Nat, n'.getD m "" =
            n.getD m "" ++ strConcat (List.replicate (ks.count (m : Int)) (name ++ ","))) := by
  intro ks
  induction ks with
  | nil =>
    intro u n _ _
    refine ⟨u, n, rfl, rfl, rfl, fun m => by simp, fun m => ?_⟩
    simp [strConcat_nil]
  | cons k ks ih =>
    intro u n hb hlen
    obtain ⟨hk0, hk1⟩ := hb k (List.mem_cons_self k ks)
    have hk1n : k < (n.length : Int) := by omega
    have hu := pyModify_ok (l := u) (k := k) (fun x => x + nodes) 0 hk0 hk1
    have hn := pyModify_ok (l := n) (k := k) (fun x => x ++ (name ++ ",")) "" hk0 hk1n
    have hbw : bucketWrite nodes name (u, n) k =
        .ok (u.set k.toNat (u.getD k.toNat 0 + nodes),
             n.set k.toNat (n.getD k.toNat "" ++ (name ++ ","))) := by
      simp only [bucketWrite]
      rw [hu, except_bind_ok, hn, except_bind_ok]
      rfl
    have hlen1 : (u.set k.toNat (u.getD k.toNat 0 + nodes)).length = u.length :=
      List.length_set ..
    have hlen2 : (n.set k.toNat (n.getD k.toNat "" ++ (name ++ ","))).length = n.length :=
      List.length_set ..
    obtain ⟨u', n', hfold, hul, hnl, hvals, hstrs⟩ :=
      ih (u.set k.toNat (u.getD k.toNat 0 + nodes))
        (n.set k.toNat (n.getD k.toNat "" ++ (name ++ ",")))
        (by
          intro k' hk'
          have := hb k' (List.mem_cons_of_mem _ hk')
          omega)
        (by omega)
    refine ⟨u', n', ?_, by omega, by omega, ?_, ?_⟩
    · rw [List.foldlM_cons, hbw, except_bind_ok, hfold]
    · intro m
      rw [hvals m, List.count_cons]
      by_cases hmk : k = (m : Int)
      · have hm : k.toNat = m := by omega
        have hmlt : m < u.length := by omega
        rw [hm, getD_set_self hmlt]
        simp only [hmk, beq_self_eq_true, if_true]
        push_cast
        ring
      · have hm : k.toNat ≠ m := by omega
        rw [getD_set_ne hm]
        have : (k == (m : Int)) = false := by
          simp [hmk]
        rw [this]
        simp
    · intro m
      rw [hstrs m, List.count_cons]
      by_cases hmk : k = (m : Int)
      · have hm : k.toNat = m := by omega
        have hmlt : m < n.length := by omega
        rw [hm, getD_set_self hmlt]
        simp only [hmk, beq_self_eq_true, if_true]
        rw [strConcat_replicate_succ, String.append_assoc]
      · have hm : k.toNat ≠ m := by omega
        rw [getD_set_ne hm]
        have : (k == (m : Int)) = false := by
          simp [hmk]
        rw [this]
        simp

theorem recBuckets_ok {t0 : Int} {step : ℚ} (hs : step ≠ 0) (r : Rec) :
    recBuckets t0 step r =
      .ok (pyint (((r.start - t0 : Int) : ℚ) / step),
           pyint (((r.end_ - t0 : Int) : ℚ) / step)) := by
  simp only [recBuckets, pydiv, if_neg hs]
  rw [except_bind_ok, except_bind_ok]
  rfl

theorem bucketStep_ok {t0 : Int} {step : ℚ} (hs : step ≠ 0) (r : Rec)
    (u : List Int) (n : List String) (hlen : n.length = u.length)
    (h0 : 0 ≤ pyint (((r.start - t0 : Int) : ℚ) / step))
    (h1 : pyint (((r.end_ - t0 : Int) : ℚ) / step) ≤ (u.length : Int)) :
    ∃ u' n', bucketStep u n r t0 step = .ok (u', n')
      ∧ u'.length = u.length ∧ n'.length = n.length
      ∧ (∀ m : Nat, u'.getD m 0 = u.getD m 0 +
          (if pyCovers t0 step (m : Int) r then r.nnodes else 0))
      ∧ (∀ m : Nat, n'.getD m "" = n.getD m "" ++
          (if pyCovers t0 step (m : Int) r then r.jobname ++ "," else "")) := by
  set i := pyint (((r.start - t0 : Int) : ℚ) / step) with hi
  set j := pyint (((r.end_ - t0 : Int) : ℚ) / step) with hj
  obtain ⟨u', n', hfold, hul, hnl, hvals, hstrs⟩ :=
    foldlM_bucketWrite r.nnodes r.jobname (intRange i j) u n
      (by
        intro k hk
        have := mem_intRange.mp hk
        omega)
      hlen
  refine ⟨u', n', ?_, hul, hnl, ?_, ?_⟩
  · simp only [bucketStep]
    rw [recBuckets_ok hs, except_bind_ok, ← hi, ← hj, hfold]
  · intro m
    rw [hvals m, intRange_count]
    have hcov : pyCovers t0 step (m : Int) r = true ↔ (i ≤ (m : Int) ∧ (m : Int) < j) := by
      simp [pyCovers, hi, hj]
    by_cases hc : i ≤ (m : Int) ∧ (m : Int) < j
    · rw [if_pos hc, if_pos (hcov.mpr hc)]
      push_cast
      ring
    · rw [if_neg hc, if_neg (fun ht => hc (hcov.mp ht))]
      simp
  · intro m
    rw [hstrs m, intRange_count]
    have hcov : pyCovers t0 step (m : Int) r = true ↔ (i ≤ (m : Int) ∧ (m : Int) < j) := by
      simp [pyCovers, hi, hj]
    by_cases hc : i ≤ (m : Int) ∧ (m : Int) < j
    · rw [if_pos hc, if_pos (hcov.mpr hc)]
      simp only [List.replicate_succ, List.replicate_zero, strConcat_cons, strConcat_nil,
        String.append_empty]
    · rw [if_neg hc, if_neg (fun ht => hc (hcov.mp ht))]
      simp [strConcat_nil]

theorem bucketLoop_chars {t0 : Int} {step : ℚ} (hs : step ≠ 0) (res : Nat) :
    ∀ (data : List Rec) (u : List Int) (n : List String),
      u.length = res → n.length = res →
      (∀ r ∈ data, 0 ≤ pyint (((r.start - t0 : Int) : ℚ) / step) ∧
          pyint (((r.end_ - t0 : Int) : ℚ) / step) ≤ (res : Int)) →
      ∃ u' n',
        data.foldlM (fun acc r => bucketStep acc.1 acc.2 r t0 step) (u, n) = .ok (u', n')
        ∧ u'.length = res ∧ n'.length = res
        ∧ (∀ m : Nat, u'.getD m 0 = u.getD m 0 +
            ((data.filter (fun r => pyCovers t0 step (m : Int) r)).map Rec.nnodes).sum)
        ∧ (∀ m : Nat, n'.getD m "" = n.getD m "" ++
            strConcat ((data.filter (fun r => pyCovers t0 step (m : Int) r)).map
              (fun r => r.jobname ++ ","))) := by
  intro data
  induction data with
  | nil =>
    intro u n hu hn _
    exact ⟨u, n, rfl, hu, hn, fun m => by simp, fun m => by simp [strConcat_nil]⟩
  | cons r rest ih =>
    intro u n hu hn hb
    obtain ⟨hr0, hr1⟩ := hb r (List.mem_cons_self r rest)
    obtain ⟨u1, n1, hstep, hu1, hn1, hv1, hs1⟩ :=
      bucketStep_ok hs r u n (by omega) hr0 (by omega)
    obtain ⟨u', n', hfold, hul, hnl, hvals, hstrs⟩ :=
      ih u1 n1 (by omega) (by omega)
        (fun r' hr' => hb r' (List.mem_cons_of_mem _ hr'))
    refine ⟨u', n', ?_, hul, hnl, ?_, ?_⟩
    · rw [List.foldlM_cons, hstep, except_bind_ok, hfold]
    · intro m
      rw [hvals m, hv1 m, List.filter_cons]
      by_cases hc : pyCovers t0 step (m : Int) r = true
      · rw [if_pos hc, if_pos hc, List.map_cons, List.sum_cons]
        ring
      · rw [if_neg hc, if_neg hc]
        simp
    · intro m
      rw [hstrs m, hs1 m, List.filter_cons]
      by_cases hc : pyCovers t0 step (m : Int) r = true
      · rw [if_pos hc, if_pos hc, List.map_cons, strConcat_cons, String.append_assoc]
      · rw [if_neg hc, if_neg hc, String.append_empty]

/-- The histogram step `(t1 - t0) / res` as computed by `get_usage`. -/
def histStep (d : Rec) (ds : List Rec) (res : Nat) : ℚ :=
  ((maxEnd d ds - minStart d ds : Int) : ℚ) / (res : ℚ)

theorem histStep_pos {d : Rec} {ds : List Rec} {res : Nat} (hres : 0 < res)
    (hdur : minStart d ds < maxEnd d ds) : 0 < histStep d ds res := by
  apply div_pos
  · exact_mod_cast (by omega : (0 : Int) < maxEnd d ds - minStart d ds)
  · exact_mod_cast hres

theorem pyint_bounds_of_mem {d : Rec} {ds : List Rec} {res : Nat} (hres : 0 < res)
    (hdur : minStart d ds < maxEnd d ds) {r : Rec} (hr : r ∈ d :: ds) :
    0 ≤ pyint (((r.start - minStart d ds : Int) : ℚ) / histStep d ds res)
    ∧ pyint (((r.end_ - minStart d ds : Int) : ℚ) / histStep d ds res) ≤ (res : Int) := by
  have hstep := histStep_pos hres hdur
  have hres' : (0 : ℚ) < (res : ℚ) := by exact_mod_cast hres
  constructor
  · have hoff : (0 : ℚ) ≤ ((r.start - minStart d ds : Int) : ℚ) := by
      have := minStart_le hr
      exact_mod_cast (by omega : (0 : Int) ≤ r.start - minStart d ds)
    have hq : 0 ≤ ((r.start - minStart d ds : Int) : ℚ) / histStep d ds res :=
      div_nonneg hoff hstep.le
    rw [pyint_of_nonneg hq]
    exact Int.floor_nonneg.mpr hq
  · have hoff : ((r.end_ - minStart d ds : Int) : ℚ) ≤
        ((maxEnd d ds - minStart d ds : Int) : ℚ) := by
      have := le_maxEnd hr
      exact_mod_cast (by omega : r.end_ - minStart d ds ≤ maxEnd d ds - minStart d ds)
    have hmul : (res : ℚ) * histStep d ds res = ((maxEnd d ds - minStart d ds : Int) : ℚ) := by
      rw [histStep]
      field_simp
    have hq : ((r.end_ - minStart d ds : Int) : ℚ) / histStep d ds res ≤ (res : ℚ) := by
      rw [div_le_iff₀ hstep]
      calc ((r.end_ - minStart d ds : Int) : ℚ) ≤ _ := hoff
        _ = (res : ℚ) * histStep d ds res := hmul.symm
    calc pyint (((r.end_ - minStart d ds : Int) : ℚ) / histStep d ds res)
        ≤ ⌈((r.end_ - minStart d ds : Int) : ℚ) / histStep d ds res⌉ := pyint_le_ceil _
      _ ≤ (res : Int) := Int.ceil_le.mpr (by exact_mod_cast hq)

/-- **C2.** For every non-empty record list, positive resolution and
positive total span, every bucket index `k` generated by the inner
`range(i, j)` loop of `get_usage` satisfies `0 ≤ k ≤ res - 1` — in
particular every write `usage[k] += ...` / `names[k] += ...` into the
`res`-element arrays is in bounds, including for a record whose end time
equals the global maximum end time exactly. -/
theorem bucket_indices_in_range_C2 (d : Rec) (ds : List Rec) (res : Nat) (r : Rec)
    (i j k : Int) (hres : 0 < res) (hdur : minStart d ds < maxEnd d ds)
    (hr : r ∈ d :: ds)
    (hij : recBuckets (minStart d ds) (histStep d ds res) r = .ok (i, j))
    (hk : k ∈ intRange i j) : 0 ≤ k ∧ k ≤ (res : Int) - 1 := by
  have hs : histStep d ds res ≠ 0 := ne_of_gt (histStep_pos hres hdur)
  rw [recBuckets_ok hs] at hij
  obtain ⟨hi, hj⟩ : pyint (((r.start - minStart d ds : Int) : ℚ) / histStep d ds res) = i ∧
      pyint (((r.end_ - minStart d ds : Int) : ℚ) / histStep d ds res) = j := by
    have := Except.ok.inj hij
    exact ⟨congrArg Prod.fst this, congrArg Prod.snd this⟩
  obtain ⟨hb0, hb1⟩ := pyint_bounds_of_mem hres hdur hr
  have := mem_intRange.mp hk
  omega

theorem list_eq_range_map {α : Type _} (d : α) (f : Nat → α) (l : List α) (res : Nat)
    (hlen : l.length = res) (h : ∀ m, m < res → l.getD m d = f m) :
    l = (List.range res).map f := by
  apply List.ext_getElem
  · simp [hlen]
  · intro i h1 h2
    have hi : i < res := by omega
    have hd := h i hi
    rw [List.getD_eq_getElem?_getD, List.getElem?_eq_getElem h1] at hd
    simp only [Option.getD_some] at hd
    rw [hd, List.getElem_map, List.getElem_range]

theorem pyCovers_eq_covers {t0 : Int} {step : ℚ} (hstep : 0 < step) {r : Rec}
    (h0 : t0 ≤ r.start) (h1 : t0 ≤ r.end_) (k : Int) :
    pyCovers t0 step k r = covers t0 step k r := by
  have hs : (0 : ℚ) ≤ ((r.start - t0 : Int) : ℚ) := by
    exact_mod_cast (by omega : (0 : Int) ≤ r.start - t0)
  have he : (0 : ℚ) ≤ ((r.end_ - t0 : Int) : ℚ) := by
    exact_mod_cast (by omega : (0 : Int) ≤ r.end_ - t0)
  simp only [pyCovers, covers, pyint_of_nonneg (div_nonneg hs hstep.le),
    pyint_of_nonneg (div_nonneg he hstep.le)]

/-- **C1.** On a non-empty record list with positive resolution and positive
total span (and the data-model invariant `start ≤ end` of each record), the
histogram loop adds each record's node count to exactly the buckets
`k ∈ [i, j)` with `i = ⌊start_offset / step⌋`, `j = ⌊end_offset / step⌋`, and
appends `name + ','` to exactly those buckets; a record with `start == end`
covers no bucket at all. -/
theorem histogram_assignment_C1 (d : Rec) (ds : List Rec) (res : Nat)
    (usage : List Int) (names : List String)
    (hres : 0 < res) (hdur : minStart d ds < maxEnd d ds)
    (hinv : ∀ r ∈ d :: ds, r.start ≤ r.end_)
    (hok : bucketLoop (d :: ds) (minStart d ds) (histStep d ds res) res = .ok (usage, names)) :
    usage = (List.range res).map (fun m : Nat =>
      (((d :: ds).filter
          (fun r => covers (minStart d ds) (histStep d ds res) (m : Int) r)).map
        Rec.nnodes).sum)
    ∧ names = (List.range res).map (fun m : Nat =>
      strConcat (((d :: ds).filter
          (fun r => covers (minStart d ds) (histStep d ds res) (m : Int) r)).map
        (fun r => r.jobname ++ ",")))
    ∧ ∀ r ∈ d :: ds, r.start = r.end_ →
        ∀ k : Int, covers (minStart d ds) (histStep d ds res) k r = false := by
  have hstep := histStep_pos hres hdur
  have hfilter : ∀ m : Nat,
      (d :: ds).filter (fun r => pyCovers (minStart d ds) (histStep d ds res) (m : Int) r) =
        (d :: ds).filter (fun r => covers (minStart d ds) (histStep d ds res) (m : Int) r) := by
    intro m
    apply List.filter_congr
    intro r hr
    rw [pyCovers_eq_covers hstep (minStart_le hr)
      (le_trans (minStart_le hr) (hinv r hr))]
  obtain ⟨u', n', hfold, hul, hnl, hvals, hstrs⟩ :=
    bucketLoop_chars (ne_of_gt hstep) res (d :: ds)
      (List.replicate res 0) (List.replicate res "") (by simp) (by simp)
      (fun r hr => pyint_bounds_of_mem hres hdur hr)
  rw [bucketLoop, hfold] at hok
  obtain ⟨hu, hn⟩ : u' = usage ∧ n' = names := by
    have := Except.ok.inj hok
    exact ⟨congrArg Prod.fst this, congrArg Prod.snd this⟩
  subst hu
  subst hn
  refine ⟨?_, ?_, ?_⟩
  · apply list_eq_range_map 0 _ _ res hul
    intro m hm
    rw [hvals m, getD_replicate, hfilter m, zero_add]
  · apply list_eq_range_map "" _ _ res hnl
    intro m hm
    rw [hstrs m, getD_replicate, hfilter m, String.empty_append]
  · intro r hr heq k
    simp only [covers, heq, Bool.and_eq_false_iff, decide_eq_false_iff_not, not_le, not_lt]
    omega

/-! ### Failure modes of `get_usage` -/

/-- **C9.** `get_usage` fails explicitly — `min()` of an empty sequence
raises `ValueError` on an empty record list, and `duration / res` raises
`ZeroDivisionError` when the requested resolution is `0` — rather than
returning a degenerate histogram. -/
theorem get_usage_fails_empty_or_zero_res_C9 :
    (∀ res : Nat, get_usage [] res = .error "min() arg is an empty sequence")
    ∧ ∀ (d : Rec) (ds : List Rec), get_usage (d :: ds) 0 = .error "division by zero" := by
  constructor
  · intro res
    rfl
  · intro d ds
    rfl

/-- **C10.** On a non-empty record list whose global span is zero
(`max end == min start`) and any positive resolution, `get_usage` dies with
`ZeroDivisionError` at the first record's `int(begin / step)` since
`step == 0.0` — a failure condition strictly wider than the empty-input /
zero-resolution cases of C9. -/
theorem get_usage_zero_span_C10 (d : Rec) (ds : List Rec) (res : Nat)
    (hres : res ≠ 0) (hspan : maxEnd d ds = minStart d ds) :
    get_usage (d :: ds) res = .error "float division by zero" := by
  have hstep : ((maxEnd d ds - minStart d ds : Int) : ℚ) / (res : ℚ) = 0 := by
    rw [hspan]
    simp
  have hrb : recBuckets (minStart d ds) 0 d = .error "float division by zero" := by
    have hzero : pydiv ((d.start - minStart d ds : Int) : ℚ) 0 =
        .error "float division by zero" := by
      simp [pydiv]
    simp only [recBuckets, hzero, except_bind_error]
  have hbs : bucketStep (List.replicate res 0) (List.replicate res "") d (minStart d ds) 0 =
      .error "float division by zero" := by
    simp only [bucketStep, hrb, except_bind_error]
  simp only [get_usage, if_neg hres, hstep, bucketLoop, List.foldlM_cons, hbs,
    except_bind_error]

/-! ### The concrete scenario of the spec (§8) -/

/-- First record of the concrete scenario: `{start:0, end:3600, nodes:2, name:"coXYZ"}`. -/
def R1c : Rec := { jobname := "coXYZ", nnodes := 2, start := 0, end_ := 3600 }

/-- Second record of the concrete scenario: `{start:1800, end:5400, nodes:3, name:"moAB"}`. -/
def R2c : Rec := { jobname := "moAB", nnodes := 3, start := 1800, end_ := 5400 }

/-- The concrete scenario's record list. -/
def usageRecs : List Rec := [R1c, R2c]

theorem usageRecs_step : histStep R1c [R2c] 2 = 2700 := by
  have h1 : minStart R1c [R2c] = 0 := by decide
  have h2 : maxEnd R1c [R2c] = 5400 := by decide
  rw [histStep, h1, h2]
  norm_num

theorem usageRecs_rb1 : recBuckets 0 2700 R1c = .ok (0, 1) := by
  rw [recBuckets_ok (by norm_num)]
  have h1 : pyint (((R1c.start - 0 : Int) : ℚ) / 2700) = 0 := by
    norm_num [pyint, R1c]
  have h2 : pyint (((R1c.end_ - 0 : Int) : ℚ) / 2700) = 1 := by
    have : ((3600 : Int) : ℚ) / 2700 = 4/3 := by norm_num
    norm_num [pyint, R1c, this]
  rw [h1, h2]

theorem usageRecs_rb2 : recBuckets 0 2700 R2c = .ok (0, 2) := by
  rw [recBuckets_ok (by norm_num)]
  have h1 : pyint (((R2c.start - 0 : Int) : ℚ) / 2700) = 0 := by
    have : ((1800 : Int) : ℚ) / 2700 = 2/3 := by norm_num
    norm_num [pyint, R2c, this]
  have h2 : pyint (((R2c.end_ - 0 : Int) : ℚ) / 2700) = 2 := by
    have : ((5400 : Int) : ℚ) / 2700 = 2 := by norm_num
    norm_num [pyint, R2c, this]
  rw [h1, h2]

theorem usageRecs_loop :
    bucketLoop [R1c, R2c] 0 2700 2 = .ok ([5, 3], ["coXYZ,moAB,", "moAB,"]) := by
  have hs1 : bucketStep (List.replicate 2 0) (List.replicate 2 "") R1c 0 2700 =
      .ok ([2, 0], ["coXYZ,", ""]) := by
    simp only [bucketStep, usageRecs_rb1, except_bind_ok]
    decide
  have hs2 : bucketStep [2, 0] ["coXYZ,", ""] R2c 0 2700 =
      .ok ([5, 3], ["coXYZ,moAB,", "moAB,"]) := by
    simp only [bucketStep, usageRecs_rb2, except_bind_ok]
    decide
  simp only [bucketLoop, List.foldlM_cons, List.foldlM_nil, hs1, hs2,
    except_bind_ok]
  rfl

/-- **C6.** The concrete scenario of spec §8: with records
`[{start:0,end:3600,nodes:2,name:"coXYZ"}, {start:1800,end:5400,nodes:3,name:"moAB"}]`
and resolution 2, bucket 0 holds 5 nodes and both labels, bucket 1 holds
3 nodes and only the second label, and the total node-hours are 5. -/
theorem concrete_scenario_C6 :
    get_usage usageRecs 2 =
      .ok ([3/8, 9/8], [5, 3], [["coXYZ", "moAB"], ["moAB"]])
    ∧ get_nodehours usageRecs = 5 := by
  constructor
  · have hmin : minStart R1c [R2c] = 0 := by decide
    have hmax : maxEnd R1c [R2c] = 5400 := by decide
    have hq : ((5400 - 0 : Int) : ℚ) / ((2 : Nat) : ℚ) = 2700 := by norm_num
    have htimes : (List.range 2).map (fun i : Nat => (2700 : ℚ) * ((i : ℚ) + 1/2) / 3600) =
        [3/8, 9/8] := by
      norm_num [List.range_succ]
    have hjobs : (["coXYZ,moAB,", "moAB,"].map rstrip_comma).map
        (fun s => if s ≠ "" then pySplitStr s ',' else ([] : List String)) =
        [["coXYZ", "moAB"], ["moAB"]] := by decide
    simp only [usageRecs, get_usage, hmin, hmax, hq]
    rw [if_neg (by decide : ¬ (2 : Nat) = 0)]
    rw [usageRecs_loop, except_bind_ok, htimes, hjobs]
    rfl
  · have hsum : (usageRecs.map durNodes).sum = 18000 := by
      have h1 : durNodes R1c = 7200 := by
        norm_num [durNodes, R1c]
      have h2 : durNodes R2c = 10800 := by
        norm_num [durNodes, R2c]
      simp [usageRecs, h1, h2]
      norm_num
    rw [get_nodehours, hsum]
    norm_num [pyRound2, round_half_even]

theorem usageRecs_loop_minmax :
    bucketLoop (R1c :: [R2c]) (minStart R1c [R2c]) (histStep R1c [R2c] 2) 2 =
      .ok ([5, 3], ["coXYZ,moAB,", "moAB,"]) := by
  rw [usageRecs_step, show minStart R1c [R2c] = 0 by decide]
  exact usageRecs_loop

theorem usageRecs_rb2_minmax :
    recBuckets (minStart R1c [R2c]) (histStep R1c [R2c] 2) R2c = .ok (0, 2) := by
  rw [usageRecs_step, show minStart R1c [R2c] = 0 by decide]
  exact usageRecs_rb2

/-- Witness for C1: the characterization instantiated at the concrete
two-record scenario. -/
theorem histogram_assignment_C1_witness :
    (0 < 2 ∧ minStart R1c [R2c] < maxEnd R1c [R2c]
      ∧ (∀ r ∈ R1c :: [R2c], r.start ≤ r.end_))
    ∧ (([5, 3] : List Int) = (List.range 2).map (fun m : Nat =>
        (((R1c :: [R2c]).filter
            (fun r => covers (minStart R1c [R2c]) (histStep R1c [R2c] 2) (m : Int) r)).map
          Rec.nnodes).sum)
      ∧ (["coXYZ,moAB,", "moAB,"] : List String) = (List.range 2).map (fun m : Nat =>
        strConcat (((R1c :: [R2c]).filter
            (fun r => covers (minStart R1c [R2c]) (histStep R1c [R2c] 2) (m : Int) r)).map
          (fun r => r.jobname ++ ",")))
      ∧ ∀ r ∈ R1c :: [R2c], r.start = r.end_ →
          ∀ k : Int, covers (minStart R1c [R2c]) (histStep R1c [R2c] 2) k r = false) :=
  ⟨⟨by decide, by decide, by decide⟩,
    histogram_assignment_C1 R1c [R2c] 2 [5, 3] ["coXYZ,moAB,", "moAB,"]
      (by decide) (by decide) (by decide) usageRecs_loop_minmax⟩

/-- Witness for C2: the bucket index 1 generated for the second record (whose
end time equals the global maximum end time exactly) is in `[0, res-1]`. -/
theorem bucket_indices_in_range_C2_witness :
    (0 < 2 ∧ minStart R1c [R2c] < maxEnd R1c [R2c]
      ∧ R2c ∈ R1c :: [R2c] ∧ (1 : Int) ∈ intRange 0 2)
    ∧ (0 ≤ (1 : Int) ∧ (1 : Int) ≤ ((2 : Nat) : Int) - 1) :=
  ⟨⟨by decide, by decide, by decide, by decide⟩,
    bucket_indices_in_range_C2 R1c [R2c] 2 R2c 0 2 1
      (by decide) (by decide) (by decide) usageRecs_rb2_minmax (by decide)⟩

/-- A record with zero duration at a single instant. -/
def zeroRec : Rec := { jobname := "z", nnodes := 1, start := 100, end_ := 100 }

/-- Witness for C10: a single zero-length record and resolution 1 make
`get_usage` raise `ZeroDivisionError` at the bucket-index computation. -/
theorem get_usage_zero_span_C10_witness :
    ((1 : Nat) ≠ 0 ∧ maxEnd zeroRec [] = minStart zeroRec [])
    ∧ get_usage (zeroRec :: []) 1 = .error "float division by zero" :=
  ⟨⟨by decide, by decide⟩,
    get_usage_zero_span_C10 zeroRec [] 1 (by decide) (by decide)⟩

/-! ### `usage/extract.py`: record reconciliation and name classification -/

/-- One raw `sacct` CSV record; all fields are still strings because
`gather_data` runs before `convert_times`. -/
structure SacctRec where
  jobid : String
  jobname : String
  nnodes : String
  submit : String
  start : String
  end_ : String
  state : String
deriving DecidableEq

/-- Lookup in an association list modelling a Python `dict`. -/
def dlookup {α : Type _} (m : List (String × α)) (k : String) : Option α :=
  (m.find? (fun p => p.1 = k)).map Prod.snd

/-- `m[k] = v` on a Python `dict` modelled as an association list: replace in
place when the key is present (Python keeps the original insertion position),
append otherwise. -/
def dinsert {α : Type _} (m : List (String × α)) (k : String) (v : α) :
    List (String × α) :=
  if k ∈ m.map Prod.fst then m.map (fun p => if p.1 = k then (p.1, v) else p)
  else m ++ [(k, v)]

/-- One iteration of the record-collection loop of `gather_data`
(lines 70–79): `tokens = rec['jobid'].split('.')`; a one-token id is a
top-level job, otherwise the record is a step kept only when COMPLETED.
(`split` never returns an empty list; the `[]` branch is unreachable.) -/
def collectStep (acc : List (String × SacctRec) × List (String × SacctRec))
    (r : SacctRec) : List (String × SacctRec) × List (String × SacctRec) :=
  match pySplitStr r.jobid '.' with
  | [id_] => (dinsert acc.1 id_ r, acc.2)
  | id_ :: _ :: _ =>
    if r.state = "COMPLETED" then (acc.1, dinsert acc.2 id_ r) else acc
  | [] => acc

/-- The `jobs, steps` dictionaries built by `gather_data` (lines 68–79). -/
def collect (recs : List SacctRec) :
    List (String × SacctRec) × List (String × SacctRec) :=
  recs.foldl collectStep ([], [])

/-- Patching of one failed job from its completed step (lines 83–87):
copy `submit`, `start`, `end`, `state` from the step when one exists. -/
def patch1 (steps : List (String × SacctRec)) (id_ : String) (job : SacctRec) :
    SacctRec :=
  if job.state ≠ "COMPLETED" then
    match dlookup steps id_ with
    | some s =>
      { job with submit := s.submit, start := s.start, end_ := s.end_, state := s.state }
    | none => job
  else job

/-- The patch pass over the whole jobs dict; iterating over
`set(fails) & set(steps)` in any order amounts to this per-entry update. -/
def patch_jobs (jobs steps : List (String × SacctRec)) : List (String × SacctRec) :=
  jobs.map (fun p => (p.1, patch1 steps p.1 p.2))

/-- `gather_data`'s reconciliation (lines 68–88 of `usage/extract.py`):
collect jobs and completed steps, patch non-completed jobs, and return the
job records that are COMPLETED or whose jobid is in the caller's
`failed` allow-list. -/
def gather_data (recs : List SacctRec) (failed : List String) : List SacctRec :=
  let (jobs, steps) := collect recs
  ((patch_jobs jobs steps).map Prod.snd).filter
    (fun job => job.state = "COMPLETED" ∨ job.jobid ∈ failed)

/-- Literal-prefix comparison on character lists. -/
def startsWithChars : List Char → List Char → Bool
  | [], _ => true
  | _ :: _, [] => false
  | c :: cs, d :: ds => c = d && startsWithChars cs ds

/-- `re.match(core, name)` for a regex-metacharacter-free pattern `core`
(the configured mapping keys are literal prefixes such as `"co"`, `"mo"`):
the match succeeds iff `core` is a prefix of `name`, and the matched text
`match[0]` is then `core` itself. -/
def pyMatch (core name : String) : Bool := startsWithChars core.data name.data

/-- The matched texts `[match[0] for match in matches if match]` of
`convert_names`: the mapping keys matching `name`, in mapping order. -/
def matching_keys (mapping : List (String × String)) (name : String) : List String :=
  (mapping.map Prod.fst).filter (fun core => pyMatch core name)

/-- The `RuntimeError` message of `convert_names` (lines 130–132). -/
def ambig_msg (ms : List String) (name : String) : String :=
  "ERROR: Ambiguous mapping: following keys \"" ++ String.intercalate ", " ms ++
    "\" can be mapped to \"" ++ name ++ "\"."

/-- The per-record classification of `convert_names` (lines 117–136):
zero matches yield `"unknown"`, exactly one yields `mapping[matches[0]]`,
more raise `RuntimeError` with the matching keys and the job name. -/
def classify_name (mapping : List (String × String)) (name : String) :
    Except String String :=
  let ms := matching_keys mapping name
  if ms.length = 0 then .ok "unknown"
  else if ms.length = 1 then
    match mapping.find? (fun p => p.1 = ms.headD "") with
    | some p => .ok p.2
    | none => .error "KeyError"
  else .error (ambig_msg ms name)

/-- `convert_names`: replace each record's `jobname` by its code name. -/
def convert_names (data : List Rec) (mapping : List (String × String)) :
    Except String (List Rec) :=
  data.mapM (fun r => (classify_name mapping r.jobname).map
    (fun code => { r with jobname := code }))

theorem find?_eq_of_nodup {α : Type _} {m : List (String × α)} {k : String} {v : α}
    (hnd : (m.map Prod.fst).Nodup) (hkv : (k, v) ∈ m) :
    m.find? (fun p => p.1 = k) = some (k, v) := by
  induction m with
  | nil => cases hkv
  | cons p t ih =>
    rcases List.mem_cons.mp hkv with h | h
    · rw [← h]
      simp [List.find?]
    · rw [List.map_cons] at hnd
      obtain ⟨hnotin, hndt⟩ := List.nodup_cons.mp hnd
      have hkt : k ∈ t.map Prod.fst := List.mem_map.mpr ⟨(k, v), h, rfl⟩
      have hne : ¬ (p.1 = k) := fun he => hnotin (he ▸ hkt)
      simp only [List.find?]
      rw [show (decide (p.1 = k)) = false by simp [hne]]
      exact ih hndt h

/-- **C3.** `convert_names` classification: zero matching mapping keys yield
the category `"unknown"`; exactly one matching key yields that key's mapped
category; two or more matching keys raise the ambiguity `RuntimeError`
carrying the matched keys and the job name — the conflict is never resolved
to a default. -/
theorem classify_name_C3 (mapping : List (String × String)) (name : String) :
    (matching_keys mapping name = [] → classify_name mapping name = .ok "unknown")
    ∧ (∀ k v, matching_keys mapping name = [k] → (mapping.map Prod.fst).Nodup →
        (k, v) ∈ mapping → classify_name mapping name = .ok v)
    ∧ (2 ≤ (matching_keys mapping name).length →
        classify_name mapping name =
          .error (ambig_msg (matching_keys mapping name) name)) := by
  refine ⟨?_, ?_, ?_⟩
  · intro h
    simp [classify_name, h]
  · intro k v hm hnd hkv
    have hfind : mapping.find? (fun p => p.1 = k) = some (k, v) :=
      find?_eq_of_nodup hnd hkv
    simp [classify_name, hm, hfind]
  · intro h
    have h0 : ¬ (matching_keys mapping name).length = 0 := by omega
    have h1 : ¬ (matching_keys mapping name).length = 1 := by omega
    simp [classify_name, h0, h1]

/-- A concrete two-key category mapping. -/
def CM : List (String × String) := [("co", "coadd"), ("mo", "mosaic")]

/-- Witness for C3: `"coXYZ"` matches exactly the key `"co"` of `CM` and is
classified as `"coadd"`. -/
theorem classify_name_C3_witness :
    (matching_keys CM "coXYZ" = ["co"] ∧ (CM.map Prod.fst).Nodup
      ∧ ("co", "coadd") ∈ CM)
    ∧ classify_name CM "coXYZ" = .ok "coadd" :=
  ⟨⟨by decide, by decide, by decide⟩,
    (classify_name_C3 CM "coXYZ").2.1 "co" "coadd" (by decide) (by decide) (by decide)⟩

theorem mem_dinsert {α : Type _} {m : List (String × α)} {k : String} {v : α}
    {p : String × α} (h : p ∈ dinsert m k v) : p ∈ m ∨ p = (k, v) := by
  unfold dinsert at h
  split at h
  · obtain ⟨q, hq, he⟩ := List.mem_map.mp h
    by_cases hqk : q.1 = k
    · right
      rw [if_pos hqk] at he
      rw [← he, hqk]
    · left
      rw [if_neg hqk] at he
      rwa [he] at hq
  · rcases List.mem_append.mp h with h | h
    · left
      exact h
    · right
      simpa using h

theorem collect_steps_completed (recs : List SacctRec) :
    ∀ (j0 s0 : List (String × SacctRec)),
      (∀ p ∈ s0, p.2.state = "COMPLETED") →
      ∀ p ∈ (recs.foldl collectStep (j0, s0)).2, p.2.state = "COMPLETED" := by
  induction recs with
  | nil =>
    intro j0 s0 h0 p hp
    exact h0 p hp
  | cons r t ih =>
    intro j0 s0 h0 p hp
    rw [List.foldl_cons] at hp
    rcases hsp : pySplitStr r.jobid '.' with _ | ⟨id_, _ | ⟨b, rest⟩⟩
    · rw [show collectStep (j0, s0) r = (j0, s0) by simp [collectStep, hsp]] at hp
      exact ih j0 s0 h0 p hp
    · rw [show collectStep (j0, s0) r = (dinsert j0 id_ r, s0) by
        simp [collectStep, hsp]] at hp
      exact ih _ s0 h0 p hp
    · by_cases hc : r.state = "COMPLETED"
      · rw [show collectStep (j0, s0) r = (j0, dinsert s0 id_ r) by
          simp [collectStep, hsp, hc]] at hp
        refine ih j0 _ ?_ p hp
        intro q hq
        rcases mem_dinsert hq with h | h
        · exact h0 q h
        · rw [h]
          exact hc
      · rw [show collectStep (j0, s0) r = (j0, s0) by
          simp [collectStep, hsp, hc]] at hp
        exact ih j0 s0 h0 p hp

theorem dlookup_map_snd {α β : Type _} (g : String → α → β)
    (m : List (String × α)) (k : String) :
    dlookup (m.map (fun p => (p.1, g p.1 p.2))) k = (dlookup m k).map (g k) := by
  induction m with
  | nil => rfl
  | cons p t ih =>
    by_cases h : p.1 = k
    · simp [dlookup, List.find?, h]
    · simpa [dlookup, List.find?, h] using ih

/-- **C4.** `gather_data`'s reconciliation: steps are retained only when
COMPLETED; a non-COMPLETED job with a completed step for the same id gets the
step's `submit`/`start`/`end`/`state` copied onto it; and the output is
exactly the (patched) job records whose final state is COMPLETED or whose id
is in the caller-supplied `failed` allow-list. -/
theorem gather_data_C4 (recs : List SacctRec) (failed : List String) :
    (∀ p ∈ (collect recs).2, p.2.state = "COMPLETED")
    ∧ (∀ id_ job s, dlookup (collect recs).1 id_ = some job →
        job.state ≠ "COMPLETED" → dlookup (collect recs).2 id_ = some s →
        dlookup (patch_jobs (collect recs).1 (collect recs).2) id_ =
          some { job with
            submit := s.submit, start := s.start, end_ := s.end_, state := s.state })
    ∧ gather_data recs failed =
        ((patch_jobs (collect recs).1 (collect recs).2).map Prod.snd).filter
          (fun job => job.state = "COMPLETED" ∨ job.jobid ∈ failed)
    ∧ (∀ r ∈ gather_data recs failed, r.state = "COMPLETED" ∨ r.jobid ∈ failed) := by
  have hout : gather_data recs failed =
      ((patch_jobs (collect recs).1 (collect recs).2).map Prod.snd).filter
        (fun job => job.state = "COMPLETED" ∨ job.jobid ∈ failed) := rfl
  refine ⟨collect_steps_completed recs [] [] (by intro p hp; cases hp), ?_, hout, ?_⟩
  · intro id_ job s hj hns hstep
    have hp1 : patch1 (collect recs).2 id_ job =
        { job with
          submit := s.submit, start := s.start, end_ := s.end_, state := s.state } := by
      rw [patch1, if_pos hns, hstep]
    rw [patch_jobs, dlookup_map_snd (patch1 (collect recs).2), hj,
      Option.map_some', hp1]
  · intro r hr
    rw [hout] at hr
    have := (List.mem_filter.mp hr).2
    exact of_decide_eq_true this

/-- A failed top-level job record. -/
def failedJob : SacctRec :=
  { jobid := "7", jobname := "j", nnodes := "1", submit := "s0", start := "t0",
    end_ := "e0", state := "NODE_FAIL" }

/-- A completed step record of the same job. -/
def goodStep : SacctRec :=
  { jobid := "7.0", jobname := "j.0", nnodes := "1", submit := "s1", start := "t1",
    end_ := "e1", state := "COMPLETED" }

/-- Witness for C4: the failed job `7` is patched from its completed step
`7.0`. -/
theorem gather_data_C4_witness :
    (dlookup (collect [failedJob, goodStep]).1 "7" = some failedJob
      ∧ failedJob.state ≠ "COMPLETED"
      ∧ dlookup (collect [failedJob, goodStep]).2 "7" = some goodStep)
    ∧ dlookup (patch_jobs (collect [failedJob, goodStep]).1
          (collect [failedJob, goodStep]).2) "7" =
        some { failedJob with
          submit := goodStep.submit, start := goodStep.start,
          end_ := goodStep.end_, state := goodStep.state } :=
  ⟨⟨by decide, by decide, by decide⟩,
    (gather_data_C4 [failedJob, goodStep] []).2.1 "7" failedJob goodStep
      (by decide) (by decide) (by decide)⟩

theorem dinsert_of_not_mem {α : Type _} {m : List (String × α)} {k : String} (v : α)
    (h : ¬ k ∈ m.map Prod.fst) : dinsert m k v = m ++ [(k, v)] := by
  rw [dinsert, if_neg h]

theorem dinsert_keys {α : Type _} (m : List (String × α)) (k : String) (v : α) :
    (dinsert m k v).map Prod.fst =
      if k ∈ m.map Prod.fst then m.map Prod.fst else m.map Prod.fst ++ [k] := by
  rw [dinsert]
  by_cases h : k ∈ m.map Prod.fst
  · rw [if_pos h, if_pos h, List.map_map]
    apply List.map_congr_left
    intro p _
    by_cases hp : p.1 = k
    · simp [hp]
    · simp [hp]
  · rw [if_neg h, if_neg h]
    simp

theorem dinsert_keys_nodup {α : Type _} {m : List (String × α)} {k : String} {v : α}
    (h : (m.map Prod.fst).Nodup) : ((dinsert m k v).map Prod.fst).Nodup := by
  by_cases hk : k ∈ m.map Prod.fst
  · rw [dinsert_keys, if_pos hk]
    exact h
  · rw [dinsert_keys, if_neg hk]
    refine List.Nodup.append h (List.nodup_singleton k) ?_
    intro a ha hb
    rw [List.mem_singleton.mp hb] at ha
    exact hk ha

theorem collect_jobs_inv (recs : List SacctRec) :
    ∀ (j0 s0 : List (String × SacctRec)),
      (j0.map Prod.fst).Nodup →
      (∀ p ∈ j0, pySplitStr p.2.jobid '.' = [p.1]) →
      ((recs.foldl collectStep (j0, s0)).1.map Prod.fst).Nodup
      ∧ ∀ p ∈ (recs.foldl collectStep (j0, s0)).1,
          pySplitStr p.2.jobid '.' = [p.1] := by
  induction recs with
  | nil =>
    intro j0 s0 h1 h2
    exact ⟨h1, h2⟩
  | cons r t ih =>
    intro j0 s0 h1 h2
    rw [List.foldl_cons]
    rcases hsp : pySplitStr r.jobid '.' with _ | ⟨id_, _ | ⟨b, rest⟩⟩
    · rw [show collectStep (j0, s0) r = (j0, s0) by simp [collectStep, hsp]]
      exact ih j0 s0 h1 h2
    · rw [show collectStep (j0, s0) r = (dinsert j0 id_ r, s0) by
        simp [collectStep, hsp]]
      refine ih _ s0 (dinsert_keys_nodup h1) ?_
      intro p hp
      rcases mem_dinsert hp with h | h
      · exact h2 p h
      · rw [h]
        exact hsp
    · by_cases hc : r.state = "COMPLETED"
      · rw [show collectStep (j0, s0) r = (j0, dinsert s0 id_ r) by
          simp [collectStep, hsp, hc]]
        exact ih j0 _ h1 h2
      · rw [show collectStep (j0, s0) r = (j0, s0) by simp [collectStep, hsp, hc]]
        exact ih j0 s0 h1 h2

theorem collect_of_clean :
    ∀ (l : List (String × SacctRec)) (j0 s0 : List (String × SacctRec)),
      (∀ p ∈ l, pySplitStr p.2.jobid '.' = [p.1]) →
      ((j0 ++ l).map Prod.fst).Nodup →
      (l.map Prod.snd).foldl collectStep (j0, s0) = (j0 ++ l, s0) := by
  intro l
  induction l with
  | nil =>
    intro j0 s0 _ _
    simp
  | cons p t ih =>
    intro j0 s0 hsplit hnd
    have hsp : pySplitStr p.2.jobid '.' = [p.1] :=
      hsplit p (List.mem_cons_self p t)
    have hnotmem : ¬ p.1 ∈ j0.map Prod.fst := by
      intro hmem
      rw [List.map_append, List.map_cons] at hnd
      obtain ⟨hj0, hpt, hdisj⟩ := List.nodup_append.mp hnd
      exact hdisj hmem (List.mem_cons_self _ _)
    have hstep : collectStep (j0, s0) p.2 = (j0 ++ [p], s0) := by
      simp only [collectStep, hsp]
      rw [dinsert_of_not_mem _ hnotmem, Prod.mk.eta]
    rw [List.map_cons, List.foldl_cons, hstep]
    have hnd' : ((j0 ++ [p] ++ t).map Prod.fst).Nodup := by
      rw [List.append_assoc, List.singleton_append]
      exact hnd
    rw [ih (j0 ++ [p]) s0 (fun q hq => hsplit q (List.mem_cons_of_mem _ hq)) hnd',
      List.append_assoc, List.singleton_append]

theorem patch1_nil (k : String) (job : SacctRec) : patch1 [] k job = job := by
  rw [patch1]
  split
  · rfl
  · rfl

theorem patch_jobs_nil (jobs : List (String × SacctRec)) : patch_jobs jobs [] = jobs := by
  rw [patch_jobs]
  have h : (fun p : String × SacctRec => (p.1, patch1 [] p.1 p.2)) = fun p => p := by
    funext p
    rw [patch1_nil, Prod.mk.eta]
  rw [h, List.map_id']

theorem patch1_jobid (steps : List (String × SacctRec)) (k : String) (job : SacctRec) :
    (patch1 steps k job).jobid = job.jobid := by
  by_cases h : job.state ≠ "COMPLETED"
  · rw [patch1, if_pos h]
    cases hdl : dlookup steps k with
    | none => rfl
    | some s => rfl
  · rw [patch1, if_neg h]

theorem patch_jobs_keys (jobs steps : List (String × SacctRec)) :
    (patch_jobs jobs steps).map Prod.fst = jobs.map Prod.fst := by
  rw [patch_jobs, List.map_map]
  apply List.map_congr_left
  intro p _
  rfl

/-- **C7.** Reconciliation is idempotent: running `gather_data`'s
collect/patch/filter pipeline on its own output (with the same `failed`
allow-list) returns that output unchanged. -/
theorem gather_data_idempotent_C7 (recs : List SacctRec) (failed : List String) :
    gather_data (gather_data recs failed) failed = gather_data recs failed := by
  obtain ⟨hnd, hsplit⟩ :=
    collect_jobs_inv recs [] [] (by simp) (by intro p hp; cases hp)
  have hout : gather_data recs failed =
      ((patch_jobs (collect recs).1 (collect recs).2).filter
        (fun p => decide (p.2.state = "COMPLETED" ∨ p.2.jobid ∈ failed))).map
        Prod.snd := by
    rw [show gather_data recs failed =
        ((patch_jobs (collect recs).1 (collect recs).2).map Prod.snd).filter
          (fun job => decide (job.state = "COMPLETED" ∨ job.jobid ∈ failed)) from rfl,
      List.filter_map]
    rfl
  set keyed := (patch_jobs (collect recs).1 (collect recs).2).filter
    (fun p => decide (p.2.state = "COMPLETED" ∨ p.2.jobid ∈ failed)) with hkeyed
  have hknd : (keyed.map Prod.fst).Nodup := by
    have hsub : List.Sublist (keyed.map Prod.fst)
        ((patch_jobs (collect recs).1 (collect recs).2).map Prod.fst) :=
      List.Sublist.map Prod.fst (List.filter_sublist _)
    rw [patch_jobs_keys] at hsub
    exact hnd.sublist hsub
  have hksplit : ∀ p ∈ keyed, pySplitStr p.2.jobid '.' = [p.1] := by
    intro p hp
    have hp' := (List.mem_filter.mp hp).1
    obtain ⟨q, hq, he⟩ := List.mem_map.mp hp'
    rw [← he]
    show pySplitStr (patch1 (collect recs).2 q.1 q.2).jobid '.' = [q.1]
    rw [patch1_jobid]
    exact hsplit q hq
  have hkpred : ∀ p ∈ keyed,
      decide (p.2.state = "COMPLETED" ∨ p.2.jobid ∈ failed) = true :=
    fun p hp => (List.mem_filter.mp hp).2
  have hcol2 : collect (keyed.map Prod.snd) = (keyed, []) := by
    rw [collect]
    exact collect_of_clean keyed [] [] hksplit (by simpa using hknd)
  rw [hout]
  have hgd2 : gather_data (keyed.map Prod.snd) failed =
      ((patch_jobs (collect (keyed.map Prod.snd)).1
          (collect (keyed.map Prod.snd)).2).map Prod.snd).filter
        (fun job => decide (job.state = "COMPLETED" ∨ job.jobid ∈ failed)) := rfl
  rw [hgd2, hcol2]
  show ((patch_jobs keyed []).map Prod.snd).filter
      (fun job => decide (job.state = "COMPLETED" ∨ job.jobid ∈ failed)) =
    keyed.map Prod.snd
  rw [patch_jobs_nil]
  apply List.filter_eq_self.mpr
  intro a ha
  obtain ⟨p, hp, he⟩ := List.mem_map.mp ha
  rw [← he]
  exact hkpred p hp

/-! ### `get_first_last` of `usage/usage.py` / `usage/output.py` -/

/-- `names.setdefault(job, set()).add(idx)`: Python sets of bucket indices
are modelled as duplicate-free lists in insertion order (lines 349–352). -/
def sadd (m : List (String × List Nat)) (k : String) (idx : Nat) :
    List (String × List Nat) :=
  if k ∈ m.map Prod.fst then
    m.map (fun p =>
      if p.1 = k then (p.1, if idx ∈ p.2 then p.2 else p.2 ++ [idx]) else p)
  else m ++ [(k, [idx])]

/-- The `names` dictionary of `get_first_last`: for each bucket index and
each job label in that bucket, record the index. -/
def names_dict (jobs : List (List String)) : List (String × List Nat) :=
  jobs.enum.foldl (fun m p => p.2.foldl (fun m' job => sadd m' job p.1) m) []

/-- Insertion into an ascending list. -/
def insort (x : Nat) : List Nat → List Nat
  | [] => [x]
  | y :: ys => if x ≤ y then x :: y :: ys else y :: insort x ys

/-- Python `sorted` on naturals (insertion sort), for
`data_final = {k: sorted(v) ...}` (line 356). -/
def pySorted (l : List Nat) : List Nat := l.foldr insort []

/-- `sum([[s, e] for s, e in zip(value, value[1:]) if e - s > 1], [])`
(line 364, already flattened); on the naturals produced by `enumerate`,
`e - s > 1` is `s + 1 < e`. -/
def gap_edges (value : List Nat) : List Nat :=
  (((value.zip value.tail).filter (fun p => p.1 + 1 < p.2)).map
    (fun p => [p.1, p.2])).flatten

/-- `value[-1:]`. -/
def lastOne (value : List Nat) : List Nat :=
  match value.getLast? with
  | some x => [x]
  | none => []

/-- `edges = value[:1] + sum(gap, []) + value[-1:]` (line 365). -/
def edges_of (value : List Nat) : List Nat :=
  value.take 1 ++ gap_edges value ++ lastOne value

/-- `list(zip(edges[::2], edges[1::2]))` (line 366). -/
def pairUp : List Nat → List (Nat × Nat)
  | a :: b :: rest => (a, b) :: pairUp rest
  | _ => []

/-- The span list computed for one label (lines 363–366). -/
def start_end_of (value : List Nat) : List (Nat × Nat) := pairUp (edges_of value)

/-- `get_first_last` (lines 331–368 of `usage/usage.py`; the copy in
`usage/output.py` lines 63–100 is identical). -/
def get_first_last (jobs : List (List String)) :
    List (String × List (Nat × Nat)) :=
  (names_dict jobs).map (fun p => (p.1, start_end_of (pySorted p.2)))

/-- Modelled from the spec (§4.5 wording): merge a sequence of indices into
runs, starting a new run exactly when the gap between consecutive indices
exceeds 1. -/
def runsSpec : List Nat → List (Nat × Nat)
  | [] => []
  | [x] => [(x, x)]
  | x :: y :: t =>
    if x + 1 < y then (x, x) :: runsSpec (y :: t)
    else
      match runsSpec (y :: t) with
      | [] => []
      | (_, e) :: rest => (x, e) :: rest

theorem gap_edges_cons (x y : Nat) (t : List Nat) :
    gap_edges (x :: y :: t) =
      (if x + 1 < y then [x, y] else []) ++ gap_edges (y :: t) := by
  simp only [gap_edges, List.tail_cons, List.zip_cons_cons, List.filter_cons]
  by_cases h : x + 1 < y
  · simp [h]
  · simp [h]

theorem lastOne_cons_cons (x y : Nat) (t : List Nat) :
    lastOne (x :: y :: t) = lastOne (y :: t) := by
  simp [lastOne, List.getLast?_cons_cons]

theorem edges_of_cons_shape (c : Nat) (l : List Nat) :
    edges_of (c :: l) = c :: (gap_edges (c :: l) ++ lastOne (c :: l)) := by
  simp [edges_of]

theorem edges_of_cons_cons (x y : Nat) (t : List Nat) :
    edges_of (x :: y :: t) =
      if x + 1 < y then x :: x :: edges_of (y :: t)
      else x :: (edges_of (y :: t)).tail := by
  by_cases h : x + 1 < y
  · rw [if_pos h]
    simp [edges_of, gap_edges_cons, lastOne_cons_cons, h]
  · rw [if_neg h]
    rw [edges_of_cons_shape x (y :: t), edges_of_cons_shape y t,
      gap_edges_cons, if_neg h, lastOne_cons_cons]
    simp

theorem runsSpec_head : ∀ (x : Nat) (l : List Nat),
    ∃ e rest, runsSpec (x :: l) = (x, e) :: rest
  | x, [] => ⟨x, [], rfl⟩
  | x, y :: t => by
    obtain ⟨e, rest, hr⟩ := runsSpec_head y t
    by_cases h : x + 1 < y
    · exact ⟨x, runsSpec (y :: t), by simp only [runsSpec, if_pos h]⟩
    · refine ⟨e, rest, ?_⟩
      simp only [runsSpec, if_neg h, hr]

theorem start_end_eq_runs : ∀ (v : List Nat), start_end_of v = runsSpec v
  | [] => rfl
  | [x] => rfl
  | x :: y :: t => by
    have IH := start_end_eq_runs (y :: t)
    rw [start_end_of, edges_of_cons_cons]
    by_cases h : x + 1 < y
    · rw [if_pos h]
      simp only [pairUp, runsSpec, if_pos h]
      exact congrArg _ IH
    · rw [if_neg h]
      obtain ⟨e, rest, hr⟩ := runsSpec_head y t
      have hE := edges_of_cons_shape y t
      have hIH : pairUp (y :: (gap_edges (y :: t) ++ lastOne (y :: t))) =
          (y, e) :: rest := by
        rw [← hE]
        rw [show pairUp (edges_of (y :: t)) = start_end_of (y :: t) from rfl, IH, hr]
      rw [hE]
      simp only [List.tail_cons]
      cases htl : gap_edges (y :: t) ++ lastOne (y :: t) with
      | nil =>
        rw [htl] at hIH
        simp [pairUp] at hIH
      | cons b rest' =>
        rw [htl] at hIH
        simp only [pairUp] at hIH
        have hb : b = e := congrArg Prod.snd (List.head_eq_of_cons_eq hIH)
        have hrest : pairUp rest' = rest := List.tail_eq_of_cons_eq hIH
        simp only [pairUp, runsSpec, if_neg h, hr, hb, hrest]

/-- A Python-`dict` entry for a possibly-absent key: `setdefault` has never
run for the key iff its index list is empty. -/
def mkopt (g : List Nat) : Option (List Nat) := if g = [] then none else some g

/-- The ascending list of bucket positions `≥ t` at which `label` occurs in
`xs` (bucket `xs[i]` sits at position `t + i`). -/
def occFrom (t : Nat) (xs : List (List String)) (label : String) : List Nat :=
  match xs with
  | [] => []
  | b :: rest => (if label ∈ b then [t] else []) ++ occFrom (t + 1) rest label

theorem dlookup_eq_none_of_not_mem {α : Type _} {m : List (String × α)} {k : String}
    (h : ¬ k ∈ m.map Prod.fst) : dlookup m k = none := by
  induction m with
  | nil => rfl
  | cons p t ih =>
    rw [List.map_cons, List.mem_cons] at h
    push_neg at h
    have hne : ¬ (p.1 = k) := fun he => h.1 he.symm
    simp only [dlookup, List.find?]
    rw [show (decide (p.1 = k)) = false by simp [hne]]
    exact ih h.2

theorem dlookup_append {α : Type _} (m m' : List (String × α)) (k : String) :
    dlookup (m ++ m') k =
      match dlookup m k with
      | some v => some v
      | none => dlookup m' k := by
  induction m with
  | nil => rfl
  | cons p t ih =>
    by_cases h : p.1 = k
    · simp only [dlookup, List.cons_append, List.find?]
      rw [show (decide (p.1 = k)) = true by simp [h]]
      rfl
    · simp only [dlookup, List.cons_append, List.find?]
      rw [show (decide (p.1 = k)) = false by simp [h]]
      exact ih

theorem dlookup_some_of_mem_keys {α : Type _} {m : List (String × α)} {k : String}
    (hk : k ∈ m.map Prod.fst) : ∃ v, dlookup m k = some v := by
  induction m with
  | nil => cases hk
  | cons p t ih =>
    by_cases hp : p.1 = k
    · refine ⟨p.2, ?_⟩
      simp only [dlookup, List.find?]
      rw [show (decide (p.1 = k)) = true by simp [hp]]
      rfl
    · have hkt : k ∈ t.map Prod.fst := by
        rw [List.map_cons, List.mem_cons] at hk
        rcases hk with h | h
        · exact absurd h.symm hp
        · exact h
      obtain ⟨v, hv⟩ := ih hkt
      refine ⟨v, ?_⟩
      simp only [dlookup, List.find?]
      rw [show (decide (p.1 = k)) = false by simp [hp]]
      exact hv

theorem dlookup_sadd (m : List (String × List Nat)) (k k' : String) (idx : Nat) :
    dlookup (sadd m k idx) k' =
      if k' = k then
        match dlookup m k with
        | some v => some (if idx ∈ v then v else v ++ [idx])
        | none => some [idx]
      else dlookup m k' := by
  by_cases hk : k ∈ m.map Prod.fst
  · have hmap : (m.map (fun p =>
        if p.1 = k then (p.1, if idx ∈ p.2 then p.2 else p.2 ++ [idx]) else p)) =
        m.map (fun p => (p.1, if p.1 = k then (if idx ∈ p.2 then p.2 else p.2 ++ [idx])
          else p.2)) := by
      apply List.map_congr_left
      intro p _
      by_cases hp : p.1 = k
      · simp [hp]
      · simp [hp]
    rw [sadd, if_pos hk, hmap,
      dlookup_map_snd (fun key v => if key = k then (if idx ∈ v then v else v ++ [idx]) else v)]
    by_cases hk' : k' = k
    · rw [if_pos hk', hk']
      obtain ⟨v, hv⟩ := dlookup_some_of_mem_keys hk
      rw [hv]
      simp
    · rw [if_neg hk']
      cases hd : dlookup m k' with
      | none => simp
      | some v => simp [hk']
  · rw [sadd, if_neg hk, dlookup_append]
    by_cases hk' : k' = k
    · rw [if_pos hk']
      subst hk'
      rw [dlookup_eq_none_of_not_mem hk]
      simp [dlookup, List.find?]
    · rw [if_neg hk']
      cases hd : dlookup m k' with
      | none =>
        simp only [dlookup, List.find?]
        rw [show (decide (k = k')) = false from decide_eq_false (fun h => hk' h.symm)]
        rfl
      | some v => rfl

theorem bucket_fold_lookup (t : Nat) :
    ∀ (b : List String) (m : List (String × List Nat)) (f : String → List Nat),
      (∀ lab, dlookup m lab = mkopt (f lab)) →
      ∀ lab, dlookup (b.foldl (fun m' job => sadd m' job t) m) lab =
        mkopt (if lab ∈ b then (if t ∈ f lab then f lab else f lab ++ [t])
          else f lab) := by
  intro b
  induction b with
  | nil =>
    intro m f hm lab
    simp [hm lab]
  | cons job rest ih =>
    intro m f hm lab
    rw [List.foldl_cons]
    have hm1 : ∀ lab, dlookup (sadd m job t) lab =
        mkopt (if lab = job then (if t ∈ f lab then f lab else f lab ++ [t])
          else f lab) := by
      intro lab
      rw [dlookup_sadd]
      by_cases hl : lab = job
      · rw [if_pos hl, if_pos hl, hl]
        rw [hm job, mkopt]
        by_cases hfe : f job = []
        · rw [if_pos hfe, hfe]
          simp [mkopt]
        · rw [if_neg hfe]
          by_cases ht : t ∈ f job
          · simp [ht, mkopt, hfe]
          · simp [ht, mkopt, hfe]
      · rw [if_neg hl, if_neg hl]
        exact hm lab
    have := ih (sadd m job t)
      (fun lab => if lab = job then (if t ∈ f lab then f lab else f lab ++ [t])
        else f lab) hm1 lab
    rw [this]
    by_cases hl : lab = job
    · subst hl
      by_cases ht : t ∈ f lab
      · simp [ht, List.mem_cons]
      · simp [ht, List.mem_cons]
    · simp [hl, List.mem_cons]

theorem enum_fold_lookup :
    ∀ (xs : List (List String)) (t : Nat) (m : List (String × List Nat))
      (f : String → List Nat),
      (∀ lab, dlookup m lab = mkopt (f lab)) →
      (∀ lab i, i ∈ f lab → i < t) →
      ∀ lab, dlookup ((List.enumFrom t xs).foldl
          (fun m p => p.2.foldl (fun m' job => sadd m' job p.1) m) m) lab =
        mkopt (f lab ++ occFrom t xs lab) := by
  intro xs
  induction xs with
  | nil =>
    intro t m f hm _ lab
    simp [occFrom, hm lab]
  | cons b rest ih =>
    intro t m f hm hbound lab
    rw [List.enumFrom_cons, List.foldl_cons]
    have hinner := bucket_fold_lookup t b m f hm
    have hsimp : ∀ lab, (if lab ∈ b then (if t ∈ f lab then f lab else f lab ++ [t])
        else f lab) = f lab ++ (if lab ∈ b then [t] else []) := by
      intro lab
      by_cases hl : lab ∈ b
      · rw [if_pos hl, if_pos hl, if_neg (fun ht => Nat.lt_irrefl t (hbound lab t ht))]
      · rw [if_neg hl, if_neg hl, List.append_nil]
    have hm1 : ∀ lab, dlookup (b.foldl (fun m' job => sadd m' job t) m) lab =
        mkopt (f lab ++ (if lab ∈ b then [t] else [])) := by
      intro lab
      rw [hinner lab, hsimp lab]
    have hbound1 : ∀ lab i, i ∈ f lab ++ (if lab ∈ b then [t] else []) → i < t + 1 := by
      intro lab i hi
      rcases List.mem_append.mp hi with h | h
      · exact Nat.lt_succ_of_lt (hbound lab i h)
      · split at h
        · rw [List.mem_singleton.mp h]
          exact Nat.lt_succ_self t
        · cases h
    have := ih (t + 1) (b.foldl (fun m' job => sadd m' job t) m)
      (fun lab => f lab ++ (if lab ∈ b then [t] else [])) hm1 hbound1 lab
    rw [this, occFrom, List.append_assoc]

theorem dlookup_map_val {α β : Type _} (g : α → β) (m : List (String × α)) (k : String) :
    dlookup (m.map (fun p => (p.1, g p.2))) k = (dlookup m k).map g :=
  dlookup_map_snd (fun _ v => g v) m k

/-- **C5.** `get_first_last`: the `names` dictionary holds, for each label,
exactly the (ascending) bucket positions where the label occurs; the span
list for each label is the gap-merged run decomposition of its sorted index
list (a new run starts exactly when the gap between consecutive indices
exceeds 1); and the label pattern `{0,1,3,4,7}` yields spans
`[(0,1),(3,4),(7,7)]`. -/
theorem get_first_last_C5 :
    (∀ (jobs : List (List String)) (label : String),
      dlookup (names_dict jobs) label = mkopt (occFrom 0 jobs label))
    ∧ (∀ (jobs : List (List String)) (label : String),
      dlookup (get_first_last jobs) label =
        (dlookup (names_dict jobs) label).map (fun v => runsSpec (pySorted v)))
    ∧ get_first_last [["a"], ["a"], [], ["a"], ["a"], [], [], ["a"]] =
        [("a", [(0, 1), (3, 4), (7, 7)])] := by
  refine ⟨?_, ?_, ?_⟩
  · intro jobs label
    have h := enum_fold_lookup jobs 0 [] (fun _ => []) (fun _ => rfl) (by simp) label
    simpa [names_dict, List.enum] using h
  · intro jobs label
    rw [get_first_last, dlookup_map_val (fun v => start_end_of (pySorted v))]
    cases dlookup (names_dict jobs) label with
    | none => rfl
    | some v => simp [start_end_eq_runs]
  · decide

/-! ### `get_codehours` of `usage/process.py` -/

/-- The key list of `dict.fromkeys(job_type, 0.0)`: first-occurrence order,
duplicates dropped. -/
def firstKeys (l : List String) : List String :=
  l.foldl (fun acc n => if n ∈ acc then acc else acc ++ [n]) []

/-- `dict.fromkeys(job_type, 0.0)`. -/
def fromkeys (l : List String) : List (String × ℚ) :=
  (firstKeys l).map (fun n => (n, (0 : ℚ)))

/-- `code_nodehours[name] += dur*node`; the key is always present because the
dict was seeded with every jobname. -/
def dupdate (m : List (String × ℚ)) (k : String) (x : ℚ) : List (String × ℚ) :=
  m.map (fun p => if p.1 = k then (p.1, p.2 + x) else p)

/-- The seeded dictionary of `get_codehours` (line 105). -/
def codehoursInit (data : List Rec) : List (String × ℚ) :=
  fromkeys (data.map (fun r => r.jobname))

/-- The accumulation loop of `get_codehours` (lines 106–107). -/
def codehoursAcc (data : List Rec) : List (String × ℚ) :=
  data.foldl (fun m r => dupdate m r.jobname (durNodes r)) (codehoursInit data)

/-- `get_codehours` of `usage/process.py` (lines 84–108): per-jobname
node-seconds, each divided by 3600 and rounded to 2 decimals independently. -/
def get_codehours (data : List Rec) : List (String × ℚ) :=
  (codehoursAcc data).map (fun p => (p.1, pyRound2 (p.2 / 3600)))

/-- The per-category node-seconds total of the spec (§4.4). -/
def sumFor (data : List Rec) (k : String) : ℚ :=
  ((data.filter (fun r => r.jobname = k)).map durNodes).sum

theorem firstKeys_fold_mem :
    ∀ (l acc : List String) (k : String),
      (k ∈ l.foldl (fun acc n => if n ∈ acc then acc else acc ++ [n]) acc) ↔
        (k ∈ acc ∨ k ∈ l) := by
  intro l
  induction l with
  | nil =>
    intro acc k
    simp
  | cons n t ih =>
    intro acc k
    rw [List.foldl_cons]
    by_cases h : n ∈ acc
    · rw [if_pos h, ih]
      simp only [List.mem_cons]
      constructor
      · rintro (hk | hk)
        · exact Or.inl hk
        · exact Or.inr (Or.inr hk)
      · rintro (hk | hk | hk)
        · exact Or.inl hk
        · exact Or.inl (hk ▸ h)
        · exact Or.inr hk
    · rw [if_neg h, ih]
      simp only [List.mem_append, List.mem_singleton, List.mem_cons]
      tauto

theorem firstKeys_fold_nodup :
    ∀ (l acc : List String), acc.Nodup →
      (l.foldl (fun acc n => if n ∈ acc then acc else acc ++ [n]) acc).Nodup := by
  intro l
  induction l with
  | nil =>
    intro acc h
    exact h
  | cons n t ih =>
    intro acc h
    rw [List.foldl_cons]
    by_cases hn : n ∈ acc
    · rw [if_pos hn]
      exact ih acc h
    · rw [if_neg hn]
      refine ih _ (List.Nodup.append h (List.nodup_singleton n) ?_)
      intro a ha hb
      rw [List.mem_singleton.mp hb] at ha
      exact hn ha

theorem dlookup_fromkeys (l : List String) (k : String) :
    dlookup (fromkeys l) k = if k ∈ l then some 0 else none := by
  have key : ∀ (l' : List String), dlookup (l'.map (fun n => (n, (0 : ℚ)))) k =
      if k ∈ l' then some 0 else none := by
    intro l'
    induction l' with
    | nil => rfl
    | cons n t ih =>
      by_cases h : n = k
      · subst h
        simp [dlookup, List.find?]
      · have hstep : dlookup ((n :: t).map (fun n => (n, (0 : ℚ)))) k =
            dlookup (t.map (fun n => (n, (0 : ℚ)))) k := by
          simp only [List.map_cons, dlookup, List.find?]
          rw [show (decide ((n, (0 : ℚ)).1 = k)) = false by simp [h]]
        rw [hstep, ih]
        by_cases hk : k ∈ t
        · rw [if_pos hk, if_pos (List.mem_cons_of_mem n hk)]
        · rw [if_neg hk, if_neg (by
            intro hc
            rcases List.mem_cons.mp hc with hc | hc
            · exact h hc.symm
            · exact hk hc)]
  have hmemk : k ∈ firstKeys l ↔ k ∈ l := by
    rw [firstKeys, firstKeys_fold_mem]
    simp
  rw [fromkeys, key (firstKeys l)]
  by_cases hk : k ∈ l
  · rw [if_pos hk, if_pos (hmemk.mpr hk)]
  · rw [if_neg hk, if_neg (fun hc => hk (hmemk.mp hc))]

theorem dupdate_keys (m : List (String × ℚ)) (k : String) (x : ℚ) :
    (dupdate m k x).map Prod.fst = m.map Prod.fst := by
  rw [dupdate, List.map_map]
  apply List.map_congr_left
  intro p _
  by_cases h : p.1 = k
  · simp [h]
  · simp [h]

theorem dlookup_dupdate (m : List (String × ℚ)) (k k' : String) (x : ℚ) :
    dlookup (dupdate m k x) k' =
      if k' = k then (dlookup m k').map (· + x) else dlookup m k' := by
  have hmap : dupdate m k x =
      m.map (fun p => (p.1, if p.1 = k then p.2 + x else p.2)) := by
    rw [dupdate]
    apply List.map_congr_left
    intro p _
    by_cases h : p.1 = k
    · simp [h]
    · simp [h]
  rw [hmap, dlookup_map_snd (fun key v => if key = k then v + x else v)]
  by_cases h : k' = k
  · rw [if_pos h]
    cases dlookup m k' with
    | none => rfl
    | some v => simp [h]
  · rw [if_neg h]
    cases dlookup m k' with
    | none => rfl
    | some v => simp [h]

theorem codehours_fold (k : String) :
    ∀ (data : List Rec) (m : List (String × ℚ)),
      dlookup (data.foldl (fun m r => dupdate m r.jobname (durNodes r)) m) k =
        (dlookup m k).map (· + sumFor data k) := by
  intro data
  induction data with
  | nil =>
    intro m
    rw [List.foldl_nil]
    cases dlookup m k with
    | none => rfl
    | some v => simp [sumFor]
  | cons r t ih =>
    intro m
    rw [List.foldl_cons, ih, dlookup_dupdate]
    by_cases h : k = r.jobname
    · rw [if_pos h]
      have hsum : sumFor (r :: t) k = durNodes r + sumFor t k := by
        rw [sumFor, sumFor, List.filter_cons,
          show (decide (r.jobname = k)) = true by simp [h.symm]]
        simp
      cases dlookup m k with
      | none => rfl
      | some v =>
        simp only [Option.map_some', hsum]
        rw [add_assoc]
    · rw [if_neg h]
      have hsum : sumFor (r :: t) k = sumFor t k := by
        rw [sumFor, sumFor, List.filter_cons,
          show (decide (r.jobname = k)) = false from
            decide_eq_false (fun he => h he.symm)]
        simp
      rw [hsum]

theorem dlookup_of_mem_nodup {α : Type _} {m : List (String × α)} {k : String} {v : α}
    (hnd : (m.map Prod.fst).Nodup) (h : (k, v) ∈ m) : dlookup m k = some v := by
  rw [dlookup, find?_eq_of_nodup hnd h]
  rfl

theorem codehoursAcc_keys (data : List Rec) :
    (codehoursAcc data).map Prod.fst = (codehoursInit data).map Prod.fst := by
  rw [codehoursAcc]
  generalize codehoursInit data = m
  induction data generalizing m with
  | nil => rfl
  | cons r t ih =>
    rw [List.foldl_cons, ih, dupdate_keys]

theorem codehoursAcc_nodup (data : List Rec) :
    ((codehoursAcc data).map Prod.fst).Nodup := by
  rw [codehoursAcc_keys, codehoursInit, fromkeys, List.map_map]
  have : (Prod.fst ∘ fun n : String => (n, (0 : ℚ))) = fun n => n := rfl
  rw [this, List.map_id']
  exact firstKeys_fold_nodup _ [] List.nodup_nil

/-- Records giving two categories of 18 node-seconds each: per-key rounding
yields 0.00 + 0.00 while the rounded total is 0.01. -/
def roundRecs : List Rec :=
  [{ jobname := "a", nnodes := 1, start := 0, end_ := 18 },
   { jobname := "b", nnodes := 1, start := 0, end_ := 18 }]

theorem roundRecs_durNodes_a :
    durNodes { jobname := "a", nnodes := 1, start := 0, end_ := 18 } = 18 := by
  norm_num [durNodes]

theorem roundRecs_durNodes_b :
    durNodes { jobname := "b", nnodes := 1, start := 0, end_ := 18 } = 18 := by
  norm_num [durNodes]

theorem roundRecs_acc : codehoursAcc roundRecs = [("a", 18), ("b", 18)] := by
  rw [codehoursAcc, codehoursInit, roundRecs]
  rw [show fromkeys ([{ jobname := "a", nnodes := 1, start := 0, end_ := 18 },
      { jobname := "b", nnodes := 1, start := 0, end_ := 18 }].map
        (fun r : Rec => r.jobname)) = [("a", 0), ("b", 0)] from by decide]
  simp only [List.foldl_cons, List.foldl_nil, dupdate, List.map_cons, List.map_nil]
  norm_num [roundRecs_durNodes_a, roundRecs_durNodes_b,
    show ¬ ("b" : String) = "a" from by decide,
    show ¬ ("a" : String) = "b" from by decide]

theorem round2_of_005 : pyRound2 ((18 : ℚ) / 3600) = 0 := by
  have h100 : (18 : ℚ) / 3600 * 100 = 1/2 := by norm_num
  rw [pyRound2, h100, round_half_even]
  norm_num

theorem roundRecs_codehours : get_codehours roundRecs = [("a", 0), ("b", 0)] := by
  rw [get_codehours, roundRecs_acc]
  simp only [List.map_cons, List.map_nil]
  rw [round2_of_005]

/-- **C8.** `get_codehours` maps each category to the sum of
`(end - start) * nnodes` over its records, divided by 3600 and rounded to two
decimals per key; per-key rounding means the sum of the returned values can
differ from the rounded total of `get_nodehours`. -/
theorem get_codehours_C8 :
    (∀ (data : List Rec) (k : String) (v : ℚ), (k, v) ∈ get_codehours data →
      v = pyRound2 (sumFor data k / 3600))
    ∧ ((get_codehours roundRecs).map (fun p => p.2)).sum ≠ get_nodehours roundRecs := by
  constructor
  · intro data k v hmem
    obtain ⟨q, hq, he⟩ := List.mem_map.mp hmem
    have hk : q.1 = k := congrArg Prod.fst he
    have hv : pyRound2 (q.2 / 3600) = v := congrArg Prod.snd he
    have hqmem : (k, q.2) ∈ codehoursAcc data := by
      rw [← hk]
      rw [Prod.mk.eta]
      exact hq
    have hlook : dlookup (codehoursAcc data) k = some q.2 :=
      dlookup_of_mem_nodup (codehoursAcc_nodup data) hqmem
    rw [codehoursAcc, codehours_fold] at hlook
    cases hinit : dlookup (codehoursInit data) k with
    | none =>
      rw [hinit] at hlook
      cases hlook
    | some w =>
      have hw : w = 0 := by
        rw [codehoursInit, dlookup_fromkeys] at hinit
        by_cases hkl : k ∈ data.map (fun r => r.jobname)
        · rw [if_pos hkl] at hinit
          exact (Option.some.inj hinit).symm
        · rw [if_neg hkl] at hinit
          cases hinit
      rw [hinit, Option.map_some'] at hlook
      have hq2 : q.2 = sumFor data k := by
        have := Option.some.inj hlook
        rw [hw] at this
        rw [← this, zero_add]
      rw [← hv, hq2]
  · have htot : get_nodehours roundRecs = 1/100 := by
      have hsum : (roundRecs.map durNodes).sum = 36 := by
        rw [roundRecs]
        simp [roundRecs_durNodes_a, roundRecs_durNodes_b]
        norm_num
      rw [get_nodehours, hsum]
      have h100 : (36 : ℚ) / 3600 * 100 = 1 := by norm_num
      rw [pyRound2, h100, round_half_even]
      norm_num
    rw [roundRecs_codehours, htot]
    simp only [List.map_cons, List.map_nil]
    norm_num

/-- Witness for C8: category `"a"` of the two-record example carries the
independently rounded value `0.00`. -/
theorem get_codehours_C8_witness :
    (("a", (0 : ℚ)) ∈ get_codehours roundRecs)
    ∧ (0 : ℚ) = pyRound2 (sumFor roundRecs "a" / 3600) :=
  have hmem : ("a", (0 : ℚ)) ∈ get_codehours roundRecs := by
    rw [roundRecs_codehours]
    exact List.mem_cons_self _ _
  ⟨hmem, get_codehours_C8.1 roundRecs "a" 0 hmem⟩

end LdfOps
